import Mathlib

/-!
Verification of the tree-index arithmetic and test-vector codec of
`src/treemath.rs` (melissa). The Rust functions are shallowly embedded on
`Nat`: machine `usize` values are modelled as unbounded naturals (all inputs
exercised by the code are far below `2^64`, and the bit operations used —
`^`, `|`, `<<`, `& !(1 << k)` — agree with their `Nat` counterparts there);
`u8` truncation (`as u8`) is modelled as `% 256`. The `while` loops that
correct virtual indices can diverge on out-of-range inputs, so they are
modelled with an explicit fuel argument and return `Option`: `none` models
a loop that did not reach its exit condition within the fuel (for the valid
inputs treated by the theorems below, the fuel is proved sufficient, and a
fuel bounded by the tree height is proved sufficient as well).
-/

namespace treemath

/-- Fuel-indexed unfolding of the loop in `log2` (`while m > 1 { m >>= 1; r += 1 }`).
The fuel only serves to make the definition structurally recursive; `log2` below
supplies enough fuel for every input. -/
def log2Aux : Nat → Nat → Nat
  | 0, _ => 0
  | fuel + 1, n => if n ≤ 1 then 0 else log2Aux fuel (n / 2) + 1

/-- Rust `log2` from src/treemath.rs: floor of the base-2 logarithm (0 at 0 and 1). -/
def log2 (n : Nat) : Nat := log2Aux n n

/-- Rust `pow2` from src/treemath.rs: `match n { 0 => 1, _ => 2 << (n - 1) }`. -/
def pow2 (n : Nat) : Nat :=
  match n with
  | 0 => 1
  | k + 1 => 2 <<< k

/-- Fuel-indexed unfolding of the loop in `level`
(`while ((n >> k) & 1) == 1 { k += 1 }`, i.e. counting trailing one-bits). -/
def levelAux : Nat → Nat → Nat
  | 0, _ => 0
  | fuel + 1, x => if x % 2 = 0 then 0 else levelAux fuel (x / 2) + 1

/-- Rust `level` from src/treemath.rs: the number of trailing one-bits of `x`. -/
def level (x : Nat) : Nat := levelAux x x

/-- Rust `node_width` from src/treemath.rs: `2 * (n - 1) + 1`. -/
def node_width (n : Nat) : Nat := 2 * (n - 1) + 1

/-- Rust `assert_in_range` from src/treemath.rs panics iff `x > node_width n`.
This Bool records whether the assertion passes (`true` = no panic). -/
def assert_in_range_ok (x n : Nat) : Bool := !(decide (x > node_width n))

/-- Rust `root` from src/treemath.rs: `(1 << log2(node_width n)) - 1`. -/
def root (n : Nat) : Nat := (1 <<< log2 (node_width n)) - 1

/-- Rust `left` from src/treemath.rs: flip the bit at position `level x - 1`;
identity on leaves (`level x = 0`). -/
def left (x : Nat) : Nat :=
  if level x = 0 then x else x ^^^ (1 <<< (level x - 1))

/-- The loop `while r >= node_width(n) { r = left(r) }` of `right`,
with explicit fuel; `none` models non-termination within the fuel. -/
def rightLoop : Nat → Nat → Nat → Option Nat
  | 0, _, _ => none
  | fuel + 1, r, n => if r ≥ node_width n then rightLoop fuel (left r) n else some r

/-- Rust `right` from src/treemath.rs: `x ^ (0x03 << (level x - 1))`, then walk
down with `left` while the result is a virtual index; identity on leaves. -/
def right (x n : Nat) : Option Nat :=
  if level x = 0 then some x
  else rightLoop ((x ^^^ (3 <<< (level x - 1))) + 1) (x ^^^ (3 <<< (level x - 1))) n

/-- Clearing bit `i`, the `Nat` reading of `& !(1 << i)` on machine integers. -/
def clear_bit (x i : Nat) : Nat := if x.testBit i then x - (1 <<< i) else x

/-- Rust `parent_step` from src/treemath.rs: `(x | (1 << k)) & !(1 << (k + 1))`
with `k = level x`. -/
def parent_step (x : Nat) : Nat := clear_bit (x ||| (1 <<< level x)) (level x + 1)

/-- The loop `while p >= node_width(n) { p = parent_step(p) }` of `parent`,
with explicit fuel; `none` models non-termination within the fuel. -/
def parentLoop : Nat → Nat → Nat → Option Nat
  | 0, _, _ => none
  | fuel + 1, p, n => if p ≥ node_width n then parentLoop fuel (parent_step p) n else some p

/-- Rust `parent` from src/treemath.rs: the root is its own parent; otherwise apply
`parent_step` and correct virtual indices. Fuel `node_width n` is proved
sufficient for all in-range inputs. -/
def parent (x n : Nat) : Option Nat :=
  if x = root n then some x
  else parentLoop (node_width n) (parent_step x) n

/-- Rust `sibling` from src/treemath.rs: the other child of `parent x n`
(the root is its own sibling). -/
def sibling (x n : Nat) : Option Nat :=
  match parent x n with
  | none => none
  | some p => if x < p then right p n else if p < x then some (left p) else some p

/-- The loop of `dirpath` (`while node_parent != root { push; climb }`),
with explicit fuel, returning the climbed parents. -/
def dirpathLoop : Nat → Nat → Nat → Option (List Nat)
  | 0, _, _ => none
  | fuel + 1, p, n =>
    if p = root n then some []
    else
      match parent p n with
      | none => none
      | some p2 =>
        match dirpathLoop fuel p2 n with
        | none => none
        | some rest => some (p :: rest)

/-- Rust `dirpath` from src/treemath.rs: `x` followed by its proper ancestors,
leaf to root, excluding the root; empty at the root. -/
def dirpath (x n : Nat) : Option (List Nat) :=
  if x = root n then some []
  else
    match parent x n with
    | none => none
    | some p =>
      match dirpathLoop (node_width n) p n with
      | none => none
      | some rest => some (x :: rest)

/-- The `map` over `sibling` used by `copath`, lifted through `Option`. -/
def siblingsOf : List Nat → Nat → Option (List Nat)
  | [], _ => some []
  | y :: ys, n =>
    match sibling y n, siblingsOf ys n with
    | some s, some rest => some (s :: rest)
    | _, _ => none

/-- Rust `copath` from src/treemath.rs: the siblings of the dirpath entries. -/
def copath (x n : Nat) : Option (List Nat) :=
  match dirpath x n with
  | none => none
  | some d => siblingsOf d n

/-- Rust `leaves` from src/treemath.rs: `[0, 2, …, 2 * (n - 1)]`. -/
def leaves (n : Nat) : List Nat := (List.range n).map (fun x => 2 * x)

/-- One hex digit of `format!("{:02X}", b)`: `0`–`9` then `A`–`F`. -/
def hexDigit (n : Nat) : Char :=
  if n < 10 then Char.ofNat (48 + n) else Char.ofNat (55 + n)

/-- Rust `bytes_to_hex` from src/treemath.rs: each byte becomes the two uppercase
hex digits of `{:02X}` (strings are modelled as `List Char`). -/
def bytes_to_hex (bytes : List Nat) : List Char :=
  bytes.flatMap (fun b => [hexDigit (b / 16), hexDigit (b % 16)])

/-- One digit as accepted by `u8::from_str_radix(_, 16)`:
`0`–`9`, `A`–`F` or `a`–`f`. -/
def hexCharVal (c : Char) : Option Nat :=
  if 48 ≤ c.toNat ∧ c.toNat ≤ 57 then some (c.toNat - 48)
  else if 65 ≤ c.toNat ∧ c.toNat ≤ 70 then some (c.toNat - 55)
  else if 97 ≤ c.toNat ∧ c.toNat ≤ 102 then some (c.toNat - 87)
  else none

/-- Rust `hex_to_bytes` from src/treemath.rs: parse `len / 2` two-digit groups
(`unwrap` on a non-digit is modelled as `none`; a trailing odd character is
ignored, as by `0..(hex.len() / 2)`). -/
def hex_to_bytes : List Char → Option (List Nat)
  | c1 :: c2 :: rest =>
    match hexCharVal c1, hexCharVal c2, hex_to_bytes rest with
    | some h, some l, some bs => some ((16 * h + l) :: bs)
    | _, _, _ => none
  | _ => some []

/-- The uppercase-hex-digit alphabet `0`–`9`, `A`–`F` (used to state C9). -/
def isUpperHexDigit (c : Char) : Bool :=
  (48 ≤ c.toNat && c.toNat ≤ 57) || (65 ≤ c.toNat && c.toNat ≤ 70)

/-- Rust `FunctionType` from src/treemath.rs (the dispatched operation shapes). -/
inductive FunctionType where
  | OneArg : (Nat → Nat) → FunctionType
  | TwoArgs : (Nat → Nat → Nat) → FunctionType
  | TwoArgsPath : (Nat → Nat → List Nat) → FunctionType

/-- Modelled from the spec: the length-prefixed byte-sequence encoder of the
`codec` module (not under src/) — "writes a one-byte length field followed by
the raw bytes". -/
def encode_vec_u8 (buffer : List Nat) (v : List Nat) : List Nat :=
  buffer ++ (v.length % 256) :: v

/-- Rust `gen_vector` from src/treemath.rs: iterate `range_start..range_end`
(half-open `Range`), collect one truncated output per iterated value, then
serialize `(range_end - range_start + 1) as u8` followed by the encoded
samples (scalar cases: one length-prefixed vector; path case: per sample a
length byte and then the length-prefixed bytes). -/
def gen_vector (range_start range_end size : Nat) (ft : FunctionType) : List Nat :=
  let dom := List.range' range_start (range_end - range_start)
  let buffer := [(range_end - range_start + 1) % 256]
  match ft with
  | .OneArg f => encode_vec_u8 buffer (dom.map (fun i => f i % 256))
  | .TwoArgs f => encode_vec_u8 buffer (dom.map (fun i => f i size % 256))
  | .TwoArgsPath f =>
    (dom.map (fun i => (f i size).map (fun v => v % 256))).foldl
      (fun buf e => encode_vec_u8 (buf ++ [e.length % 256]) e) buffer

/-- Rust `ReturnType` from src/treemath.rs. -/
inductive ReturnType where
  | Primitive : List Nat → ReturnType
  | Vector : List (List Nat) → ReturnType
deriving DecidableEq

/-- Modelled from the spec: the length-prefixed decoder `decode_vec_u8` of the
`codec` module (not under src/) — "reads a one-byte length field then exactly
that many bytes, advancing the cursor; fails if insufficient bytes remain".
Returns the decoded bytes and the remaining buffer. -/
def decode_vec_u8 (buf : List Nat) : Option (List Nat × List Nat) :=
  match buf with
  | [] => none
  | len :: rest =>
    if len ≤ rest.length then some (rest.take len, rest.drop len) else none

/-- The `for _ in 0..size` decode loop of `read_vector`'s `Vector` case. -/
def readVectorLoop : Nat → List Nat → Option (List (List Nat) × List Nat)
  | 0, buf => some ([], buf)
  | c + 1, buf =>
    match decode_vec_u8 buf with
    | none => none
    | some (v, rest) =>
      match readVectorLoop c rest with
      | none => none
      | some (vs, r) => some (v :: vs, r)

/-- Rust `read_vector` from src/treemath.rs: the `Primitive` case decodes one
length-prefixed vector starting at the first byte of the buffer; the `Vector`
case first takes one count byte and then decodes that many length-prefixed
vectors. -/
def read_vector (rt : ReturnType) (buffer : List Nat) : Option ReturnType :=
  match rt with
  | .Primitive _ =>
    match decode_vec_u8 buffer with
    | none => none
    | some (v, _) => some (ReturnType.Primitive v)
  | .Vector _ =>
    match buffer with
    | [] => none
    | size :: rest =>
      match readVectorLoop size rest with
      | none => none
      | some (vs, _) => some (ReturnType.Vector vs)

/-- Proof-side helper: the idealized complete-tree ancestor of `x` at level
`j` — clear bits `0..j` of `x`, then set bits `0..j-1`. The iterates of
`parent_step` walk through these values. -/
def A (x j : Nat) : Nat := x / 2 ^ (j + 1) * 2 ^ (j + 1) + (2 ^ j - 1)

end treemath

namespace treemath

/-! ### Recursion equations for the fuel-based definitions -/

theorem levelAux_zero (f : Nat) : levelAux f 0 = 0 := by
  cases f <;> simp [levelAux]

theorem levelAux_eq : ∀ x f g, x ≤ f → x ≤ g → levelAux f x = levelAux g x := by
  intro x
  induction x using Nat.strong_induction_on with
  | _ x ih =>
    intro f g hf hg
    match x, f, g with
    | 0, f, g => rw [levelAux_zero, levelAux_zero]
    | x + 1, f + 1, g + 1 =>
      simp only [levelAux]
      by_cases h : (x + 1) % 2 = 0
      · simp [h]
      · simp only [h, if_false]
        have hlt : (x + 1) / 2 < x + 1 := by omega
        rw [ih ((x + 1) / 2) hlt f g (by omega) (by omega)]

theorem level_even {x : Nat} (h : x % 2 = 0) : level x = 0 := by
  unfold level
  match x with
  | 0 => rw [levelAux_zero]
  | x + 1 => simp [levelAux, h]

theorem level_odd {x : Nat} (h : x % 2 = 1) : level x = level (x / 2) + 1 := by
  unfold level
  match x with
  | 0 => simp at h
  | x + 1 =>
    simp only [levelAux, h]
    simp only [show ¬((1 : Nat) = 0) by omega, if_false]
    rw [levelAux_eq ((x + 1) / 2) x ((x + 1) / 2) (by omega) (by omega)]

theorem log2Aux_eq : ∀ n f g, n ≤ f → n ≤ g → log2Aux f n = log2Aux g n := by
  intro n
  induction n using Nat.strong_induction_on with
  | _ n ih =>
    intro f g hf hg
    match n, f, g with
    | 0, f, g => cases f <;> cases g <;> simp [log2Aux]
    | n + 1, f + 1, g + 1 =>
      simp only [log2Aux]
      by_cases h : n + 1 ≤ 1
      · simp [h]
      · simp only [h, if_false]
        have hlt : (n + 1) / 2 < n + 1 := by omega
        rw [ih ((n + 1) / 2) hlt f g (by omega) (by omega)]

theorem log2_le_one {n : Nat} (h : n ≤ 1) : log2 n = 0 := by
  unfold log2
  match n, h with
  | 0, _ => rfl
  | 1, _ => rfl

theorem log2_rec {n : Nat} (h : 2 ≤ n) : log2 n = log2 (n / 2) + 1 := by
  unfold log2
  match n, h with
  | n + 2, _ =>
    rw [show log2Aux (n + 2) (n + 2)
        = if n + 2 ≤ 1 then 0 else log2Aux (n + 1) ((n + 2) / 2) + 1 from rfl,
      if_neg (by omega),
      log2Aux_eq ((n + 2) / 2) (n + 1) ((n + 2) / 2) (by omega) (by omega)]

/-! ### Division, modulus and testBit toolkit -/

theorem two_pow_pos (k : Nat) : 0 < 2 ^ k := Nat.pos_pow_of_pos k (by omega)

theorem pow_split {i j : Nat} (h : j ≤ i) : (2 : Nat) ^ i = 2 ^ (i - j) * 2 ^ j := by
  rw [← Nat.pow_add]
  congr 1
  omega

theorem div_mul_pow_add {a b : Nat} (i j : Nat) (hj : j ≤ i) :
    (a * 2 ^ i + b) / 2 ^ j = a * 2 ^ (i - j) + b / 2 ^ j := by
  rw [pow_split hj, ← Nat.mul_assoc, Nat.add_comm, Nat.mul_comm (a * 2 ^ (i - j)) (2 ^ j),
    Nat.add_mul_div_left b _ (two_pow_pos j), Nat.add_comm]

theorem div_pow_high {a b : Nat} (i j : Nat) (hj : i ≤ j) (hb : b < 2 ^ i) :
    (a * 2 ^ i + b) / 2 ^ j = a / 2 ^ (j - i) := by
  have h2 : (2 : Nat) ^ j = 2 ^ (j - i) * 2 ^ i := pow_split (by omega)
  have h3 : (2 : Nat) ^ j = 2 ^ i * 2 ^ (j - i) := by rw [h2, Nat.mul_comm]
  rw [h3, ← Nat.div_div_eq_div_mul, Nat.mul_comm a (2 ^ i), Nat.mul_add_div (two_pow_pos i),
    Nat.div_eq_of_lt hb, Nat.add_zero]

theorem mod_mul_pow_add {a b : Nat} (i j : Nat) (hj : j ≤ i) :
    (a * 2 ^ i + b) % 2 ^ j = b % 2 ^ j := by
  rw [pow_split hj, ← Nat.mul_assoc, Nat.add_comm, Nat.add_mul_mod_self_right]

theorem testBit_mul_pow_add (a b i j : Nat) (hb : b < 2 ^ i) :
    (a * 2 ^ i + b).testBit j = if j < i then b.testBit j else a.testBit (j - i) := by
  by_cases hj : j < i
  · rw [if_pos hj, Nat.testBit_to_div_mod, Nat.testBit_to_div_mod,
      div_mul_pow_add i j (by omega)]
    have key : (a * 2 ^ (i - j) + b / 2 ^ j) % 2 = b / 2 ^ j % 2 := by
      obtain ⟨d, hd⟩ : ∃ d, i - j = d + 1 := ⟨i - j - 1, by omega⟩
      rw [hd, Nat.pow_succ, show a * (2 ^ d * 2) = 2 * (a * 2 ^ d) by ring]
      omega
    rw [key]
  · rw [if_neg hj, Nat.testBit_to_div_mod, Nat.testBit_to_div_mod,
      div_pow_high i j (by omega) hb]

theorem testBit_eq_false_of_lt {b j : Nat} (h : b < 2 ^ j) : b.testBit j = false := by
  rw [Nat.testBit_to_div_mod, Nat.div_eq_of_lt h]
  simp

theorem testBit_one (m : Nat) : (1 : Nat).testBit m = decide (m = 0) := by
  match m with
  | 0 => rfl
  | m + 1 =>
    have : (1 : Nat) < 2 ^ (m + 1) := by
      have := two_pow_pos m
      rw [Nat.pow_succ]
      omega
    rw [testBit_eq_false_of_lt this]
    simp

theorem testBit_two_pow' (i j : Nat) : (2 ^ i : Nat).testBit j = decide (j = i) := by
  have h : (2 ^ i : Nat) = 1 * 2 ^ i + 0 := by omega
  rw [h, testBit_mul_pow_add 1 0 i j (two_pow_pos i)]
  by_cases hj : j < i
  · simp [hj, Nat.zero_testBit]
    omega
  · rw [if_neg hj, testBit_one]
    simp
    omega

theorem mod_pow_succ_decomp (x i : Nat) :
    x % 2 ^ (i + 1) = x % 2 ^ i + 2 ^ i * (x / 2 ^ i % 2) := by
  rw [Nat.pow_succ, Nat.mod_mul]

end treemath

namespace treemath

/-! ### Arithmetic readings of xor / or with a single power of two -/

theorem mod_lt_pow (x i : Nat) : x % 2 ^ i < 2 ^ i := Nat.mod_lt _ (two_pow_pos i)

theorem testBit_false_iff (x i : Nat) : x.testBit i = false ↔ x % 2 ^ (i + 1) < 2 ^ i := by
  have hd := mod_pow_succ_decomp x i
  have hm := mod_lt_pow x i
  rw [Nat.testBit_to_div_mod]
  rcases Nat.mod_two_eq_zero_or_one (x / 2 ^ i) with h | h <;> rw [h] at hd <;> simp [h] <;> omega

theorem testBit_true_iff (x i : Nat) : x.testBit i = true ↔ 2 ^ i ≤ x % 2 ^ (i + 1) := by
  have hd := mod_pow_succ_decomp x i
  have hm := mod_lt_pow x i
  rw [Nat.testBit_to_div_mod]
  rcases Nat.mod_two_eq_zero_or_one (x / 2 ^ i) with h | h <;> rw [h] at hd <;> simp [h] <;> omega

theorem xor_pow_of_testBit_false {x i : Nat} (h : x.testBit i = false) :
    x ^^^ 2 ^ i = x + 2 ^ i := by
  have hps : (2 : Nat) ^ (i + 1) = 2 ^ i * 2 := by rw [Nat.pow_succ]
  have hb : x % 2 ^ (i + 1) < 2 ^ i := (testBit_false_iff x i).mp h
  have hx : x = x / 2 ^ (i + 1) * 2 ^ (i + 1) + x % 2 ^ (i + 1) := (Nat.div_add_mod' x _).symm
  apply Nat.eq_of_testBit_eq
  intro j
  rw [Nat.testBit_xor, testBit_two_pow']
  conv_lhs => rw [hx]
  conv_rhs => rw [hx]
  have h1 : x / 2 ^ (i + 1) * 2 ^ (i + 1) + x % 2 ^ (i + 1) + 2 ^ i
      = x / 2 ^ (i + 1) * 2 ^ (i + 1) + (1 * 2 ^ i + x % 2 ^ (i + 1)) := by ring
  rw [h1, testBit_mul_pow_add _ _ (i + 1) j (by omega),
    testBit_mul_pow_add _ _ (i + 1) j (by omega),
    testBit_mul_pow_add 1 _ i j (by omega)]
  rcases Nat.lt_trichotomy j i with hj | hj | hj
  · have h4 : j ≠ i := by omega
    simp [hj, Nat.lt_succ_of_lt hj, h4]
  · subst hj
    simp [Nat.lt_succ_self, testBit_eq_false_of_lt hb, testBit_one]
  · have h2 : ¬(j < i + 1) := by omega
    have h3 : ¬(j < i) := by omega
    have h4 : j ≠ i := by omega
    simp [h2, h3, h4]

theorem xor_pow_of_testBit_true {x i : Nat} (h : x.testBit i = true) :
    x ^^^ 2 ^ i = x - 2 ^ i := by
  have hps : (2 : Nat) ^ (i + 1) = 2 ^ i * 2 := by rw [Nat.pow_succ]
  have hb : 2 ^ i ≤ x % 2 ^ (i + 1) := (testBit_true_iff x i).mp h
  have hm := mod_lt_pow x (i + 1)
  have hle : 2 ^ i ≤ x := le_trans hb (Nat.mod_le x _)
  have hx : x = x / 2 ^ (i + 1) * 2 ^ (i + 1) + x % 2 ^ (i + 1) := (Nat.div_add_mod' x _).symm
  have hy : x - 2 ^ i = x / 2 ^ (i + 1) * 2 ^ (i + 1) + (x % 2 ^ (i + 1) - 2 ^ i) := by omega
  have hyb : (x - 2 ^ i).testBit i = false := by
    rw [hy, testBit_mul_pow_add _ _ (i + 1) i (by omega), if_pos (Nat.lt_succ_self i)]
    exact testBit_eq_false_of_lt (by omega)
  have hsum : (x - 2 ^ i) + 2 ^ i = x := by omega
  have h2 := xor_pow_of_testBit_false hyb
  rw [hsum] at h2
  conv_lhs => rw [← h2]
  rw [Nat.xor_assoc, Nat.xor_self, Nat.xor_zero]

theorem lor_pow_of_testBit_false {x i : Nat} (h : x.testBit i = false) :
    x ||| 2 ^ i = x + 2 ^ i := by
  have h2 := xor_pow_of_testBit_false h
  rw [← h2]
  apply Nat.eq_of_testBit_eq
  intro j
  rw [Nat.testBit_lor, Nat.testBit_xor, testBit_two_pow']
  by_cases hj : j = i
  · subst hj
    rw [h]
    simp
  · simp [hj]

/-! ### Characterization of `level` as the trailing-ones count -/

theorem odd_mod_pow (y m : Nat) : (2 * y + 1) % 2 ^ (m + 1) = 2 * (y % 2 ^ m) + 1 := by
  have hps : (2 : Nat) ^ (m + 1) = 2 ^ m * 2 := by rw [Nat.pow_succ]
  have hdm : y / 2 ^ m * 2 ^ m + y % 2 ^ m = y := Nat.div_add_mod' y (2 ^ m)
  have hm := mod_lt_pow y m
  have h2 : y / 2 ^ m * 2 ^ (m + 1) = (y / 2 ^ m * 2 ^ m) * 2 := by rw [hps]; ring
  have h1 : 2 * y + 1 = y / 2 ^ m * 2 ^ (m + 1) + (2 * (y % 2 ^ m) + 1) := by omega
  rw [h1, mod_mul_pow_add (m + 1) (m + 1) (le_refl _), Nat.mod_eq_of_lt (by omega)]

theorem div2_mod_pow (x m : Nat) : (x / 2) % 2 ^ m = x % 2 ^ (m + 1) / 2 := by
  have hps : (2 : Nat) ^ (m + 1) = 2 ^ m * 2 := by rw [Nat.pow_succ]
  have hdm : x / 2 ^ (m + 1) * 2 ^ (m + 1) + x % 2 ^ (m + 1) = x :=
    Nat.div_add_mod' x (2 ^ (m + 1))
  have hm := mod_lt_pow x (m + 1)
  have h2 : x / 2 ^ (m + 1) * 2 ^ (m + 1) = (x / 2 ^ (m + 1) * 2 ^ m) * 2 := by rw [hps]; ring
  have h3 : x / 2 = x / 2 ^ (m + 1) * 2 ^ m + x % 2 ^ (m + 1) / 2 := by omega
  rw [h3, Nat.add_comm, Nat.add_mul_mod_self_right, Nat.mod_eq_of_lt (by omega)]

theorem level_mod (x : Nat) : x % 2 ^ (level x + 1) = 2 ^ level x - 1 := by
  induction x using Nat.strong_induction_on with
  | _ x ih =>
    rcases Nat.mod_two_eq_zero_or_one x with h | h
    · rw [level_even h]
      norm_num
      exact h
    · rw [level_odd h]
      have ih2 := ih (x / 2) (by omega)
      have hp := two_pow_pos (level (x / 2))
      have hps : (2 : Nat) ^ (level (x / 2) + 1) = 2 ^ level (x / 2) * 2 := by
        rw [Nat.pow_succ]
      have hx2 : x = 2 * (x / 2) + 1 := by omega
      calc x % 2 ^ (level (x / 2) + 1 + 1)
          = (2 * (x / 2) + 1) % 2 ^ (level (x / 2) + 1 + 1) := by rw [← hx2]
        _ = 2 * (x / 2 % 2 ^ (level (x / 2) + 1)) + 1 := odd_mod_pow (x / 2) (level (x / 2) + 1)
        _ = 2 ^ (level (x / 2) + 1) - 1 := by rw [ih2]; omega

theorem level_of_mod : ∀ k x, x % 2 ^ (k + 1) = 2 ^ k - 1 → level x = k := by
  intro k
  induction k with
  | zero =>
    intro x h
    norm_num at h
    exact level_even h
  | succ k ih =>
    intro x h
    have hp := two_pow_pos k
    have hps : (2 : Nat) ^ (k + 1) = 2 ^ k * 2 := by rw [Nat.pow_succ]
    have hps2 : (2 : Nat) ^ (k + 2) = 2 ^ (k + 1) * 2 := by rw [Nat.pow_succ]
    have hodd : x % 2 = 1 := by
      have h2 : x % 2 = x % 2 ^ (k + 2) % 2 := by
        rw [Nat.mod_mod_of_dvd x ⟨2 ^ (k + 1), by rw [hps2]; ring⟩]
      rw [h2, h]
      omega
    rw [level_odd hodd]
    congr 1
    apply ih
    rw [div2_mod_pow, h]
    omega

theorem level_testBit (x : Nat) : x.testBit (level x) = false := by
  rw [testBit_false_iff, level_mod]
  have := two_pow_pos (level x)
  omega

theorem level_decomp (x : Nat) :
    x = x / 2 ^ (level x + 1) * 2 ^ (level x + 1) + (2 ^ level x - 1) := by
  conv_lhs => rw [← Nat.div_add_mod' x (2 ^ (level x + 1))]
  rw [level_mod]

end treemath

namespace treemath

/-! ### Normal forms for `left`, the `right` seed, and `parent_step` -/

theorem mod_pow_mod (x : Nat) {j i : Nat} (h : j ≤ i) : x % 2 ^ i % 2 ^ j = x % 2 ^ j :=
  Nat.mod_mod_of_dvd x (pow_dvd_pow 2 h)

theorem x_mod_level (x : Nat) : x % 2 ^ level x = 2 ^ level x - 1 := by
  have hp := two_pow_pos (level x)
  have hps : (2 : Nat) ^ (level x + 1) = 2 ^ level x * 2 := by rw [Nat.pow_succ]
  rw [← mod_pow_mod x (show level x ≤ level x + 1 by omega), level_mod,
    Nat.mod_eq_of_lt (by omega)]

theorem left_eq {x : Nat} (h : 1 ≤ level x) : left x = x - 2 ^ (level x - 1) := by
  unfold left
  rw [if_neg (by omega), Nat.shiftLeft_eq, one_mul]
  apply xor_pow_of_testBit_true
  rw [testBit_true_iff]
  have hk : level x - 1 + 1 = level x := by omega
  rw [hk, x_mod_level]
  have h1 : (2 : Nat) ^ level x = 2 ^ (level x - 1) * 2 := by
    rw [← Nat.pow_succ]
    congr 1
    omega
  have := two_pow_pos (level x - 1)
  omega

theorem level_left {x : Nat} (h : 1 ≤ level x) : level (left x) = level x - 1 := by
  apply level_of_mod
  have hd := level_decomp x
  have hp := two_pow_pos (level x - 1)
  have h2 : (2 : Nat) ^ level x = 2 ^ (level x - 1) * 2 := by
    rw [← Nat.pow_succ]
    congr 1
    omega
  have h1 : left x = x / 2 ^ (level x + 1) * 2 ^ (level x + 1) + (2 ^ (level x - 1) - 1) := by
    rw [left_eq h]
    omega
  have hk : level x - 1 + 1 = level x := by omega
  rw [h1, hk, mod_mul_pow_add (level x + 1) (level x) (by omega), Nat.mod_eq_of_lt (by omega)]

theorem left_le (x : Nat) : left x ≤ x := by
  by_cases h : level x = 0
  · unfold left
    rw [if_pos h]
  · rw [left_eq (by omega)]
    exact Nat.sub_le _ _

theorem right_pre {x : Nat} (h : 1 ≤ level x) :
    x ^^^ (3 <<< (level x - 1)) = x + 2 ^ (level x - 1) := by
  have hp := two_pow_pos (level x - 1)
  have h2 : (2 : Nat) ^ level x = 2 ^ (level x - 1) * 2 := by
    rw [← Nat.pow_succ]
    congr 1
    omega
  have h2' : (2 : Nat) ^ (level x - 1) < 2 ^ level x := by omega
  have hd := level_decomp x
  have hp1 := two_pow_pos (level x)
  have hps : (2 : Nat) ^ (level x + 1) = 2 ^ level x * 2 := by rw [Nat.pow_succ]
  have hxor3 : (3 : Nat) <<< (level x - 1) = 2 ^ (level x - 1) ^^^ 2 ^ level x := by
    rw [xor_pow_of_testBit_false (testBit_eq_false_of_lt h2'), Nat.shiftLeft_eq]
    omega
  have hb1 : x.testBit (level x - 1) = true := by
    rw [testBit_true_iff]
    have hk : level x - 1 + 1 = level x := by omega
    rw [hk, x_mod_level]
    omega
  have hsub : x - 2 ^ (level x - 1)
      = x / 2 ^ (level x + 1) * 2 ^ (level x + 1) + (2 ^ (level x - 1) - 1) := by omega
  have hb2 : (x - 2 ^ (level x - 1)).testBit (level x) = false := by
    rw [hsub, testBit_mul_pow_add _ _ (level x + 1) (level x) (by omega),
      if_pos (Nat.lt_succ_self _)]
    exact testBit_eq_false_of_lt (by omega)
  rw [hxor3, ← Nat.xor_assoc, xor_pow_of_testBit_true hb1, xor_pow_of_testBit_false hb2]
  omega

theorem clear_bit_top (q k : Nat) :
    clear_bit (q * 2 ^ (k + 1) + (2 ^ (k + 1) - 1)) (k + 1)
      = q / 2 * 2 ^ (k + 2) + (2 ^ (k + 1) - 1) := by
  have hp := two_pow_pos (k + 1)
  have hps : (2 : Nat) ^ (k + 2) = 2 ^ (k + 1) * 2 := by rw [Nat.pow_succ]
  have hbit : (q * 2 ^ (k + 1) + (2 ^ (k + 1) - 1)).testBit (k + 1) = decide (q % 2 = 1) := by
    rw [testBit_mul_pow_add q _ (k + 1) (k + 1) (by omega), if_neg (by omega),
      Nat.sub_self, Nat.testBit_to_div_mod, Nat.pow_zero, Nat.div_one]
  unfold clear_bit
  rw [hbit, Nat.shiftLeft_eq, one_mul]
  rcases Nat.mod_two_eq_zero_or_one q with hq | hq
  · rw [if_neg (by simp [hq])]
    obtain ⟨s, hs⟩ : ∃ s, q = 2 * s := ⟨q / 2, by omega⟩
    have h1 : q * 2 ^ (k + 1) = s * 2 ^ (k + 2) := by
      rw [hs, hps]
      ring
    have h2 : q / 2 = s := by omega
    rw [h1, h2]
  · rw [if_pos (by simp [hq])]
    obtain ⟨s, hs⟩ : ∃ s, q = 2 * s + 1 := ⟨q / 2, by omega⟩
    have h1 : q * 2 ^ (k + 1) = s * 2 ^ (k + 2) + 2 ^ (k + 1) := by
      rw [hs, hps]
      ring
    have h2 : q / 2 = s := by omega
    rw [h2]
    omega

theorem parent_step_eq (x : Nat) :
    parent_step x = x / 2 ^ (level x + 2) * 2 ^ (level x + 2) + (2 ^ (level x + 1) - 1) := by
  have hp0 := two_pow_pos (level x)
  have hps1 : (2 : Nat) ^ (level x + 1) = 2 ^ level x * 2 := by rw [Nat.pow_succ]
  have hd := level_decomp x
  have hdd : x / 2 ^ (level x + 2) = x / 2 ^ (level x + 1) / 2 := by
    rw [Nat.div_div_eq_div_mul]
    congr 1
  unfold parent_step
  rw [Nat.shiftLeft_eq, one_mul, lor_pow_of_testBit_false (level_testBit x)]
  have hval : x + 2 ^ level x
      = x / 2 ^ (level x + 1) * 2 ^ (level x + 1) + (2 ^ (level x + 1) - 1) := by omega
  rw [hval, clear_bit_top, hdd]

theorem level_parent_step (x : Nat) : level (parent_step x) = level x + 1 := by
  apply level_of_mod
  show parent_step x % 2 ^ (level x + 2) = 2 ^ (level x + 1) - 1
  have hp := two_pow_pos (level x + 1)
  have hps : (2 : Nat) ^ (level x + 2) = 2 ^ (level x + 1) * 2 := by rw [Nat.pow_succ]
  rw [parent_step_eq, mod_mul_pow_add (level x + 2) (level x + 2) (le_refl _),
    Nat.mod_eq_of_lt (by omega)]

/-! ### The idealized ancestors `A x j` -/

theorem A_mod (x j : Nat) : A x j % 2 ^ (j + 1) = 2 ^ j - 1 := by
  have hp := two_pow_pos j
  have hps : (2 : Nat) ^ (j + 1) = 2 ^ j * 2 := by rw [Nat.pow_succ]
  unfold A
  rw [mod_mul_pow_add (j + 1) (j + 1) (le_refl _), Nat.mod_eq_of_lt (by omega)]

theorem level_A (x j : Nat) : level (A x j) = j := level_of_mod j _ (A_mod x j)

theorem parent_step_A_self (x : Nat) : parent_step x = A x (level x + 1) := parent_step_eq x

theorem A_div (x j : Nat) : A x j / 2 ^ (j + 2) = x / 2 ^ (j + 2) := by
  have hp := two_pow_pos j
  have hps : (2 : Nat) ^ (j + 1) = 2 ^ j * 2 := by rw [Nat.pow_succ]
  unfold A
  rw [div_pow_high (j + 1) (j + 2) (by omega) (by omega),
    show j + 2 - (j + 1) = 1 by omega, Nat.pow_one, Nat.div_div_eq_div_mul]
  congr 1

theorem parent_step_A (x j : Nat) : parent_step (A x j) = A x (j + 1) := by
  have h := parent_step_eq (A x j)
  rw [level_A] at h
  rw [h, A_div]
  rfl

/-! ### `log2`, `root` and `node_width` -/

theorem log2_spec : ∀ n, 1 ≤ n → 2 ^ log2 n ≤ n ∧ n < 2 ^ (log2 n + 1) := by
  intro n
  induction n using Nat.strong_induction_on with
  | _ n ih =>
    intro hn
    by_cases h : n ≤ 1
    · have h1 : n = 1 := by omega
      subst h1
      rw [log2_le_one (le_refl _)]
      norm_num
    · rw [log2_rec (by omega)]
      have ihd := ih (n / 2) (by omega) (by omega)
      have hps1 : (2 : Nat) ^ (log2 (n / 2) + 1) = 2 ^ log2 (n / 2) * 2 := by rw [Nat.pow_succ]
      have hps2 : (2 : Nat) ^ (log2 (n / 2) + 1 + 1) = 2 ^ (log2 (n / 2) + 1) * 2 := by
        rw [Nat.pow_succ]
      omega

theorem root_eq (n : Nat) : root n = 2 ^ log2 (node_width n) - 1 := by
  unfold root
  rw [Nat.shiftLeft_eq, one_mul]

theorem width_pos (n : Nat) : 1 ≤ node_width n := by
  unfold node_width
  omega

theorem width_odd (n : Nat) : node_width n % 2 = 1 := by
  unfold node_width
  omega

theorem root_lt_width (n : Nat) : root n < node_width n := by
  have h := log2_spec (node_width n) (width_pos n)
  have := two_pow_pos (log2 (node_width n))
  rw [root_eq]
  omega

theorem level_root (n : Nat) : level (root n) = log2 (node_width n) := by
  apply level_of_mod
  have h := log2_spec (node_width n) (width_pos n)
  have hp := two_pow_pos (log2 (node_width n))
  have hps : (2 : Nat) ^ (log2 (node_width n) + 1) = 2 ^ log2 (node_width n) * 2 := by
    rw [Nat.pow_succ]
  rw [root_eq, Nat.mod_eq_of_lt (by omega)]

theorem level_le_of_lt_width {n p : Nat} (h : p < node_width n) :
    level p ≤ log2 (node_width n) := by
  by_contra hc
  push_neg at hc
  have h1 := level_mod p
  have h2 : 2 ^ level p - 1 ≤ p := h1 ▸ Nat.mod_le p (2 ^ (level p + 1))
  have h3 := log2_spec (node_width n) (width_pos n)
  have h4 : (2 : Nat) ^ (log2 (node_width n) + 1) ≤ 2 ^ level p :=
    Nat.pow_le_pow_right (by omega) (by omega)
  have := two_pow_pos (level p)
  omega

theorem eq_root_of_level {n p : Nat} (h : p < node_width n)
    (hl : level p = log2 (node_width n)) : p = root n := by
  have h1 := level_mod p
  rw [hl] at h1
  have h3 := log2_spec (node_width n) (width_pos n)
  have h4 : p % 2 ^ (log2 (node_width n) + 1) = p := Nat.mod_eq_of_lt (by omega)
  rw [root_eq]
  omega

theorem level_lt_of_ne_root {n x : Nat} (h : x < node_width n) (hx : x ≠ root n) :
    level x < log2 (node_width n) := by
  rcases Nat.lt_or_ge (level x) (log2 (node_width n)) with hlt | hge
  · exact hlt
  · have hle := level_le_of_lt_width h
    exact absurd (eq_root_of_level h (by omega)) hx

theorem A_of_lt {x j : Nat} (h : x < 2 ^ (j + 1)) : A x j = 2 ^ j - 1 := by
  unfold A
  rw [Nat.div_eq_of_lt h]
  simp

theorem A_root {n x : Nat} (h : x < node_width n) : A x (log2 (node_width n)) = root n := by
  have h3 := log2_spec (node_width n) (width_pos n)
  rw [A_of_lt (by omega), root_eq]

theorem log2_lt_width (n : Nat) : log2 (node_width n) < node_width n := by
  have h3 := log2_spec (node_width n) (width_pos n)
  have h4 : log2 (node_width n) < 2 ^ log2 (node_width n) := Nat.lt_two_pow _
  omega

end treemath

namespace treemath

/-! ### The parent loop: climbing the idealized ancestors -/

theorem parentLoop_exit {p n : Nat} (h : p < node_width n) (fuel : Nat) (hf : 1 ≤ fuel) :
    parentLoop fuel p n = some p := by
  match fuel, hf with
  | f + 1, _ =>
    show (if p ≥ node_width n then parentLoop f (parent_step p) n else some p) = some p
    rw [if_neg (by omega)]

theorem parentLoop_reaches {n x : Nat} (hx : x < node_width n) :
    ∀ fuel j, j ≤ log2 (node_width n) → log2 (node_width n) - j < fuel →
    ∃ m, j ≤ m ∧ m ≤ log2 (node_width n) ∧ A x m < node_width n ∧
      (∀ i, j ≤ i → i < m → node_width n ≤ A x i) ∧
      parentLoop fuel (A x j) n = some (A x m) := by
  intro fuel
  induction fuel with
  | zero =>
    intro j hj hf
    omega
  | succ f ih =>
    intro j hj hf
    by_cases hA : A x j < node_width n
    · exact ⟨j, le_refl _, hj, hA, by intro i h1 h2; omega,
        parentLoop_exit hA _ (by omega)⟩
    · have hjL : j < log2 (node_width n) := by
        rcases Nat.lt_or_ge j (log2 (node_width n)) with h | h
        · exact h
        · have hjeq : j = log2 (node_width n) := by omega
          rw [hjeq, A_root hx] at hA
          exact absurd (root_lt_width n) hA
      have hstep : parentLoop (f + 1) (A x j) n = parentLoop f (A x (j + 1)) n := by
        show (if A x j ≥ node_width n then parentLoop f (parent_step (A x j)) n
            else some (A x j)) = _
        rw [if_pos (by omega), parent_step_A]
      obtain ⟨m, hm1, hm2, hm3, hm4, hm5⟩ := ih (j + 1) (by omega) (by omega)
      refine ⟨m, by omega, hm2, hm3, ?_, by rw [hstep]; exact hm5⟩
      intro i h1 h2
      by_cases hij : i = j
      · subst hij
        omega
      · exact hm4 i (by omega) h2

theorem parent_spec {n x : Nat} (hx : x < node_width n) (hroot : x ≠ root n) :
    ∃ m, level x < m ∧ m ≤ log2 (node_width n) ∧ A x m < node_width n ∧
      (∀ i, level x < i → i < m → node_width n ≤ A x i) ∧
      parent x n = some (A x m) := by
  have hk := level_lt_of_ne_root hx hroot
  have hL := log2_lt_width n
  obtain ⟨m, hm1, hm2, hm3, hm4, hm5⟩ :=
    parentLoop_reaches hx (node_width n) (level x + 1) (by omega) (by omega)
  refine ⟨m, by omega, hm2, hm3, ?_, ?_⟩
  · intro i h1 h2
    exact hm4 i (by omega) h2
  · unfold parent
    rw [if_neg hroot, parent_step_A_self]
    exact hm5

theorem parent_root_self (n : Nat) : parent (root n) n = some (root n) := by
  unfold parent
  rw [if_pos rfl]

/-! ### Children of an in-range internal node -/

theorem parent_left {n p : Nat} (hp : p < node_width n) (hm : 1 ≤ level p) :
    parent (left p) n = some p := by
  have hd := level_decomp p
  have hll : level (left p) = level p - 1 := level_left hm
  have hlr : left p ≠ root n := by
    intro hcon
    have h2 := level_le_of_lt_width hp
    have h3 := level_root n
    rw [hcon, h3] at hll
    omega
  have hpm := two_pow_pos (level p - 1)
  have e1 : (2 : Nat) ^ level p = 2 ^ (level p - 1) * 2 := by
    rw [← Nat.pow_succ]
    congr 1
    omega
  have e2 : (2 : Nat) ^ (level p + 1) = 2 ^ level p * 2 := by rw [Nat.pow_succ]
  have h1 : left p = p / 2 ^ (level p + 1) * 2 ^ (level p + 1) + (2 ^ (level p - 1) - 1) := by
    rw [left_eq hm]
    omega
  have hdv : left p / 2 ^ (level p + 1) = p / 2 ^ (level p + 1) := by
    rw [h1, div_pow_high (level p + 1) (level p + 1) (le_refl _) (by omega),
      Nat.sub_self, Nat.pow_zero, Nat.div_one]
  have hstep : A (left p) (level (left p) + 1) = p := by
    rw [hll, show level p - 1 + 1 = level p by omega]
    unfold A
    rw [hdv]
    exact hd.symm
  unfold parent
  rw [if_neg hlr, parent_step_A_self, hstep]
  exact parentLoop_exit hp _ (width_pos n)

theorem odd_of_level_pos {p : Nat} (h : 1 ≤ level p) : p % 2 = 1 := by
  have h1 := x_mod_level p
  have e1 : (2 : Nat) ^ level p = 2 ^ (level p - 1) * 2 := by
    rw [← Nat.pow_succ]
    congr 1
    omega
  have hpm := two_pow_pos (level p - 1)
  have h2 : p % 2 ^ level p % 2 ^ 1 = p % 2 ^ 1 := mod_pow_mod p h
  rw [pow_one] at h2
  omega

theorem level_add_pow {p i : Nat} (hi : i < level p) : level (p + 2 ^ i) = i := by
  apply level_of_mod
  have hd := level_decomp p
  have hp0 := two_pow_pos i
  have hpm := two_pow_pos (level p)
  have e1 : (2 : Nat) ^ (level p + 1) = 2 ^ (level p - i) * 2 ^ (i + 1) := by
    rw [← Nat.pow_add]
    congr 1
    omega
  have e2 : (2 : Nat) ^ level p = 2 ^ (level p - i - 1) * 2 ^ (i + 1) := by
    rw [← Nat.pow_add]
    congr 1
    omega
  have e3 : (2 : Nat) ^ (i + 1) = 2 ^ i * 2 := by rw [Nat.pow_succ]
  have h1 : p + 2 ^ i
      = (p / 2 ^ (level p + 1) * 2 ^ (level p - i) + 2 ^ (level p - i - 1)) * 2 ^ (i + 1)
        + (2 ^ i - 1) := by
    rw [Nat.add_mul, Nat.mul_assoc, ← e1, ← e2]
    omega
  rw [h1, mod_mul_pow_add (i + 1) (i + 1) (le_refl _), Nat.mod_eq_of_lt (by omega)]

theorem left_add_pow {p i : Nat} (hi : i < level p) (h1 : 1 ≤ i) :
    left (p + 2 ^ i) = p + 2 ^ (i - 1) := by
  rw [left_eq (by rw [level_add_pow hi]; omega), level_add_pow hi]
  have e3 : (2 : Nat) ^ i = 2 ^ (i - 1) * 2 := by
    rw [← Nat.pow_succ]
    congr 1
    omega
  have := two_pow_pos (i - 1)
  omega

theorem rightLoop_spec {n p : Nat} (hp : p < node_width n) (hm : 1 ≤ level p) :
    ∀ i fuel, i < level p → i < fuel →
    ∃ j, j ≤ i ∧ p + 2 ^ j < node_width n ∧
      (∀ t, j < t → t ≤ i → node_width n ≤ p + 2 ^ t) ∧
      rightLoop fuel (p + 2 ^ i) n = some (p + 2 ^ j) := by
  intro i
  induction i with
  | zero =>
    intro fuel hi hf
    have hodd := odd_of_level_pos hm
    have hwodd := width_odd n
    have hlt : p + 2 ^ 0 < node_width n := by
      rw [Nat.pow_zero]
      omega
    refine ⟨0, le_refl _, hlt, by intro t h1 h2; omega, ?_⟩
    match fuel, hf with
    | f + 1, _ =>
      show (if p + 2 ^ 0 ≥ node_width n then rightLoop f (left (p + 2 ^ 0)) n
          else some (p + 2 ^ 0)) = some (p + 2 ^ 0)
      rw [if_neg (by omega)]
  | succ i ih =>
    intro fuel hi hf
    by_cases hlt : p + 2 ^ (i + 1) < node_width n
    · refine ⟨i + 1, le_refl _, hlt, by intro t h1 h2; omega, ?_⟩
      match fuel, hf with
      | f + 1, _ =>
        show (if p + 2 ^ (i + 1) ≥ node_width n then rightLoop f (left (p + 2 ^ (i + 1))) n
            else some (p + 2 ^ (i + 1))) = some (p + 2 ^ (i + 1))
        rw [if_neg (by omega)]
    · match fuel, hf with
      | f + 1, _ =>
        have hstep : rightLoop (f + 1) (p + 2 ^ (i + 1)) n = rightLoop f (p + 2 ^ i) n := by
          show (if p + 2 ^ (i + 1) ≥ node_width n then rightLoop f (left (p + 2 ^ (i + 1))) n
              else some (p + 2 ^ (i + 1))) = _
          rw [if_pos (by omega), left_add_pow hi (by omega),
            show i + 1 - 1 = i by omega]
        obtain ⟨j, h1, h2, h3, h4⟩ := ih f (by omega) (by omega)
        refine ⟨j, by omega, h2, ?_, by rw [hstep]; exact h4⟩
        intro t ht1 ht2
        by_cases hti : t = i + 1
        · subst hti
          omega
        · exact h3 t ht1 (by omega)

theorem right_spec {n p : Nat} (hp : p < node_width n) (hm : 1 ≤ level p) :
    ∃ j, j < level p ∧ p + 2 ^ j < node_width n ∧
      (∀ t, j < t → t < level p → node_width n ≤ p + 2 ^ t) ∧
      right p n = some (p + 2 ^ j) := by
  have hfuel : level p - 1 < p + 2 ^ (level p - 1) + 1 := by
    have := Nat.lt_two_pow (level p - 1)
    omega
  unfold right
  rw [if_neg (by omega), right_pre hm]
  obtain ⟨j, h1, h2, h3, h4⟩ :=
    rightLoop_spec hp hm (level p - 1) (p + 2 ^ (level p - 1) + 1) (by omega) hfuel
  exact ⟨j, by omega, h2, fun t ht1 ht2 => h3 t ht1 (by omega), h4⟩

theorem A_add_pow_top {p j : Nat} (hj : j < level p) :
    A (p + 2 ^ j) (level p) = p := by
  have hd := level_decomp p
  have hp0 := two_pow_pos j
  have hpm := two_pow_pos (level p)
  have e2 : (2 : Nat) ^ (level p + 1) = 2 ^ level p * 2 := by rw [Nat.pow_succ]
  have hjm : (2 : Nat) ^ j ≤ 2 ^ level p := Nat.pow_le_pow_right (by omega) (by omega)
  have h1 : p + 2 ^ j
      = p / 2 ^ (level p + 1) * 2 ^ (level p + 1) + (2 ^ level p + 2 ^ j - 1) := by omega
  have hdv : (p + 2 ^ j) / 2 ^ (level p + 1) = p / 2 ^ (level p + 1) := by
    rw [h1, div_pow_high (level p + 1) (level p + 1) (le_refl _) (by omega),
      Nat.sub_self, Nat.pow_zero, Nat.div_one]
  unfold A
  rw [hdv]
  exact hd.symm

theorem A_add_pow_mid {p j i : Nat} (hj : j < i) (hi : i < level p) :
    A (p + 2 ^ j) i = p + 2 ^ i := by
  have hd := level_decomp p
  have hp0 := two_pow_pos j
  have hpi := two_pow_pos i
  have hpm := two_pow_pos (level p)
  have e1 : (2 : Nat) ^ (level p + 1) = 2 ^ (level p - i) * 2 ^ (i + 1) := by
    rw [← Nat.pow_add]
    congr 1
    omega
  have e2 : (2 : Nat) ^ level p = 2 ^ (level p - i - 1) * 2 ^ (i + 1) := by
    rw [← Nat.pow_add]
    congr 1
    omega
  have e3 : (2 : Nat) ^ (i + 1) = 2 ^ i * 2 := by rw [Nat.pow_succ]
  have hji : (2 : Nat) ^ j ≤ 2 ^ i := Nat.pow_le_pow_right (by omega) (by omega)
  have h1 : p + 2 ^ j
      = (p / 2 ^ (level p + 1) * 2 ^ (level p - i) + 2 ^ (level p - i - 1)) * 2 ^ (i + 1)
        + (2 ^ j - 1) := by
    rw [Nat.add_mul, Nat.mul_assoc, ← e1, ← e2]
    omega
  have hdv : (p + 2 ^ j) / 2 ^ (i + 1)
      = p / 2 ^ (level p + 1) * 2 ^ (level p - i) + 2 ^ (level p - i - 1) := by
    rw [h1, div_pow_high (i + 1) (i + 1) (le_refl _) (by omega),
      Nat.sub_self, Nat.pow_zero, Nat.div_one]
  unfold A
  rw [hdv, Nat.add_mul, Nat.mul_assoc, ← e1, ← e2]
  omega

theorem parent_right {n p j : Nat} (hp : p < node_width n) (hm : 1 ≤ level p)
    (hj : j < level p) (hzw : p + 2 ^ j < node_width n)
    (hvirt : ∀ t, j < t → t < level p → node_width n ≤ p + 2 ^ t) :
    parent (p + 2 ^ j) n = some p := by
  have hlev : level (p + 2 ^ j) = j := level_add_pow hj
  have hpL := level_le_of_lt_width hp
  have hzr : p + 2 ^ j ≠ root n := by
    intro hcon
    have h3 := level_root n
    rw [hcon, h3] at hlev
    omega
  have hAm : A (p + 2 ^ j) (level p) = p := A_add_pow_top hj
  unfold parent
  rw [if_neg hzr, parent_step_A_self, hlev]
  obtain ⟨m2, h1, h2, h3, h4, h5⟩ :=
    parentLoop_reaches hzw (node_width n) (j + 1) (by omega)
      (by have := log2_lt_width n; omega)
  have hmm : m2 = level p := by
    rcases Nat.lt_trichotomy m2 (level p) with hlt | heq | hgt
    · rw [A_add_pow_mid (by omega) hlt] at h3
      have h6 := hvirt m2 (by omega) hlt
      omega
    · exact heq
    · have h6 := h4 (level p) (by omega) (by omega)
      rw [hAm] at h6
      omega
  rw [h5, hmm, hAm]

end treemath

namespace treemath

/-! ### Identifying an in-range node as left or right child of its parent -/

theorem x_mod_eq_of_virtual {n x m : Nat} (hx : x < node_width n)
    (hm : level x < m)
    (hvirt : ∀ i, level x < i → i < m → node_width n ≤ A x i) :
    x % 2 ^ m = 2 ^ level x - 1 := by
  obtain ⟨d, hd⟩ : ∃ d, m = level x + 1 + d := ⟨m - level x - 1, by omega⟩
  subst hd
  clear hm
  revert hvirt
  induction d with
  | zero =>
    intro _
    exact level_mod x
  | succ d ih =>
    intro hvirt
    have ih2 := ih (fun i h1 h2 => hvirt i h1 (by omega))
    have he : level x + 1 + (d + 1) = level x + 1 + d + 1 := by omega
    rw [he, mod_pow_succ_decomp]
    rcases Nat.mod_two_eq_zero_or_one (x / 2 ^ (level x + 1 + d)) with hb | hb
    · rw [hb, Nat.mul_zero, Nat.add_zero, ih2]
    · exfalso
      have h6 := hvirt (level x + 1 + d) (by omega) (by omega)
      have hdam : x / 2 ^ (level x + 1 + d + 1) * 2 ^ (level x + 1 + d + 1)
          + x % 2 ^ (level x + 1 + d + 1) = x := Nat.div_add_mod' x _
      have hmd : x % 2 ^ (level x + 1 + d + 1)
          = x % 2 ^ (level x + 1 + d) + 2 ^ (level x + 1 + d) * 1 := by
        rw [mod_pow_succ_decomp, hb]
      have hAe : A x (level x + 1 + d)
          = x / 2 ^ (level x + 1 + d + 1) * 2 ^ (level x + 1 + d + 1)
            + (2 ^ (level x + 1 + d) - 1) := rfl
      have hpe := two_pow_pos (level x + 1 + d)
      omega

theorem A_mid_form {x m i : Nat} (hi : i < m) (hmod : x % 2 ^ m < 2 ^ i) :
    A x i = x / 2 ^ m * 2 ^ m + (2 ^ i - 1) := by
  have hdam : x / 2 ^ m * 2 ^ m + x % 2 ^ m = x := Nat.div_add_mod' x _
  have e1 : (2 : Nat) ^ m = 2 ^ (m - i - 1) * 2 ^ (i + 1) := by
    rw [← Nat.pow_add]
    congr 1
    omega
  have e3 : (2 : Nat) ^ (i + 1) = 2 ^ i * 2 := by rw [Nat.pow_succ]
  have h1 : x = x / 2 ^ m * 2 ^ (m - i - 1) * 2 ^ (i + 1) + x % 2 ^ m := by
    rw [Nat.mul_assoc, ← e1]
    omega
  have hdv : x / 2 ^ (i + 1) = x / 2 ^ m * 2 ^ (m - i - 1) := by
    conv_lhs => rw [h1]
    rw [div_pow_high (i + 1) (i + 1) (le_refl _) (by omega),
      Nat.sub_self, Nat.pow_zero, Nat.div_one]
  unfold A
  rw [hdv, Nat.mul_assoc, ← e1]

theorem child_cases {n x m : Nat} (hx : x < node_width n)
    (hm1 : level x < m) (hm3 : A x m < node_width n)
    (hm4 : ∀ i, level x < i → i < m → node_width n ≤ A x i) :
    (x < A x m ∧ x = left (A x m)) ∨ (A x m < x ∧ x = A x m + 2 ^ level x) := by
  have hmod := x_mod_eq_of_virtual hx hm1 hm4
  have hdam : x / 2 ^ m * 2 ^ m + x % 2 ^ m = x := Nat.div_add_mod' x _
  have hplx := two_pow_pos (level x)
  have hpm := two_pow_pos m
  have hpm1 := two_pow_pos (m - 1)
  have e1 : (2 : Nat) ^ m = 2 ^ (m - 1) * 2 := by
    rw [← Nat.pow_succ]
    congr 1
    omega
  have e2 : (2 : Nat) ^ (m + 1) = 2 ^ m * 2 := by rw [Nat.pow_succ]
  have h10 : (2 : Nat) ^ level x < 2 ^ m := by
    have h11 := Nat.pow_le_pow_right (show 1 ≤ 2 by omega) (show level x + 1 ≤ m by omega)
    have e3 : (2 : Nat) ^ (level x + 1) = 2 ^ level x * 2 := by rw [Nat.pow_succ]
    omega
  have hdd : x / 2 ^ (m + 1) = x / 2 ^ m / 2 := by
    rw [Nat.div_div_eq_div_mul]
    congr 1
  have hA : A x m = x / 2 ^ m / 2 * 2 ^ (m + 1) + (2 ^ m - 1) := by
    unfold A
    rw [hdd]
  rcases Nat.mod_two_eq_zero_or_one (x / 2 ^ m) with hpar | hpar
  · left
    obtain ⟨s, hs⟩ : ∃ s, x / 2 ^ m = 2 * s := ⟨x / 2 ^ m / 2, by omega⟩
    have hs2 : x / 2 ^ m / 2 = s := by omega
    have h7 : x / 2 ^ m * 2 ^ m = s * 2 ^ (m + 1) := by
      rw [hs, e2]
      ring
    have hx_eq : x = s * 2 ^ (m + 1) + (2 ^ level x - 1) := by omega
    have hAe : A x m = s * 2 ^ (m + 1) + (2 ^ m - 1) := by rw [hA, hs2]
    have hmlx : m = level x + 1 := by
      by_contra hne
      have h8 := hm4 (level x + 1) (by omega) (by omega)
      have h9 : A x (level x + 1) = x / 2 ^ m * 2 ^ m + (2 ^ (level x + 1) - 1) :=
        A_mid_form (by omega) (by omega)
      have h12 : (2 : Nat) ^ (level x + 1) ≤ 2 ^ m := Nat.pow_le_pow_right (by omega) (by omega)
      omega
    have hlev_p : level (A x m) = m := level_A x m
    have hleft : left (A x m) = A x m - 2 ^ (m - 1) := by
      rw [left_eq (by rw [hlev_p]; omega), hlev_p]
    constructor
    · omega
    · rw [hleft, hAe]
      conv_lhs => rw [hx_eq]
      rw [show level x = m - 1 by omega]
      omega
  · right
    obtain ⟨s, hs⟩ : ∃ s, x / 2 ^ m = 2 * s + 1 := ⟨x / 2 ^ m / 2, by omega⟩
    have hs2 : x / 2 ^ m / 2 = s := by omega
    have h7 : x / 2 ^ m * 2 ^ m = s * 2 ^ (m + 1) + 2 ^ m := by
      rw [hs, e2]
      ring
    have hAe : A x m = s * 2 ^ (m + 1) + (2 ^ m - 1) := by rw [hA, hs2]
    constructor
    · omega
    · omega

end treemath

namespace treemath

/-! ### Totality and structure of `sibling`, `dirpath`, `copath` -/

theorem sibling_root_self (n : Nat) : sibling (root n) n = some (root n) := by
  unfold sibling
  rw [parent_root_self]
  simp

theorem sibling_total {n x : Nat} (hx : x < node_width n) :
    ∃ s, sibling x n = some s ∧ s < node_width n := by
  by_cases hroot : x = root n
  · subst hroot
    exact ⟨root n, sibling_root_self n, root_lt_width n⟩
  · obtain ⟨m, hm1, hm2, hm3, hm4, hm5⟩ := parent_spec hx hroot
    have hlevp : level (A x m) = m := level_A x m
    have hsib : sibling x n
        = if x < A x m then right (A x m) n
          else if A x m < x then some (left (A x m)) else some (A x m) := by
      unfold sibling
      rw [hm5]
    rcases Nat.lt_trichotomy x (A x m) with hlt | heq | hgt
    · obtain ⟨j, h1, h2, h3, h4⟩ := right_spec hm3 (by rw [hlevp]; omega)
      rw [hsib, if_pos hlt, h4]
      exact ⟨A x m + 2 ^ j, rfl, h2⟩
    · exfalso
      have hcon : level x = m := by rw [heq, hlevp]
      omega
    · rw [hsib, if_neg (by omega), if_pos hgt]
      exact ⟨left (A x m), rfl, lt_of_le_of_lt (left_le _) hm3⟩

theorem sibling_sibling {n x : Nat} (hx : x < node_width n) (hroot : x ≠ root n) :
    ∃ s, sibling x n = some s ∧ sibling s n = some x := by
  obtain ⟨m, hm1, hm2, hm3, hm4, hm5⟩ := parent_spec hx hroot
  have hlevp : level (A x m) = m := level_A x m
  have hmp : 1 ≤ level (A x m) := by rw [hlevp]; omega
  have hsib : sibling x n
      = if x < A x m then right (A x m) n
        else if A x m < x then some (left (A x m)) else some (A x m) := by
    unfold sibling
    rw [hm5]
  rcases child_cases hx hm1 hm3 hm4 with ⟨hlt, hleft⟩ | ⟨hgt, hright⟩
  · obtain ⟨j, h1, h2, h3, h4⟩ := right_spec hm3 hmp
    refine ⟨A x m + 2 ^ j, by rw [hsib, if_pos hlt, h4], ?_⟩
    have hpar := parent_right hm3 hmp h1 h2 h3
    have hz_gt : A x m < A x m + 2 ^ j := by
      have := two_pow_pos j
      omega
    have hsib_z : sibling (A x m + 2 ^ j) n
        = if A x m + 2 ^ j < A x m then right (A x m) n
          else if A x m < A x m + 2 ^ j then some (left (A x m)) else some (A x m) := by
      unfold sibling
      rw [hpar]
    rw [hsib_z, if_neg (by omega), if_pos hz_gt, ← hleft]
  · have hlp : left (A x m) = A x m - 2 ^ (m - 1) := by
      rw [left_eq hmp, hlevp]
    have hodd : A x m % 2 = 1 := odd_of_level_pos hmp
    have hpm1 := two_pow_pos (m - 1)
    have hplt : left (A x m) < A x m := by
      rw [hlp]
      omega
    refine ⟨left (A x m), by rw [hsib, if_neg (by omega), if_pos hgt], ?_⟩
    have hparl := parent_left hm3 hmp
    have hsib_l : sibling (left (A x m)) n
        = if left (A x m) < A x m then right (A x m) n
          else if A x m < left (A x m) then some (left (A x m)) else some (A x m) := by
      unfold sibling
      rw [hparl]
    rw [hsib_l, if_pos hplt]
    obtain ⟨j, h1, h2, h3, h4⟩ := right_spec hm3 hmp
    have hjlx : j = level x := by
      rcases Nat.lt_trichotomy j (level x) with hlt2 | heq2 | hgt2
      · have h6 := h3 (level x) (by omega) (by rw [hlevp]; omega)
        omega
      · exact heq2
      · have h6 := hm4 j (by omega) (by rw [hlevp] at h1; omega)
        have h7 : A x j = A x m + 2 ^ j := by
          conv_lhs => rw [hright]
          exact A_add_pow_mid hgt2 h1
        omega
    rw [h4, hjlx, ← hright]

theorem parent_children {n x : Nat} (hx : x < node_width n) (hroot : x ≠ root n) :
    ∃ p, parent x n = some p ∧ parent (left p) n = some p ∧
      ∃ z, right p n = some z ∧ parent z n = some p := by
  obtain ⟨m, hm1, hm2, hm3, hm4, hm5⟩ := parent_spec hx hroot
  have hlevp : level (A x m) = m := level_A x m
  have hmp : 1 ≤ level (A x m) := by rw [hlevp]; omega
  refine ⟨A x m, hm5, parent_left hm3 hmp, ?_⟩
  obtain ⟨j, h1, h2, h3, h4⟩ := right_spec hm3 hmp
  exact ⟨A x m + 2 ^ j, h4, parent_right hm3 hmp h1 h2 h3⟩

theorem right_total {n x : Nat} (hx : x < node_width n) :
    ∃ r, right x n = some r ∧ r < node_width n := by
  by_cases h0 : level x = 0
  · refine ⟨x, ?_, hx⟩
    unfold right
    rw [if_pos h0]
  · obtain ⟨j, h1, h2, h3, h4⟩ := right_spec hx (by omega)
    exact ⟨x + 2 ^ j, h4, h2⟩

theorem parent_total {n x : Nat} (hx : x < node_width n) :
    ∃ p, parent x n = some p ∧ p < node_width n := by
  by_cases hroot : x = root n
  · subst hroot
    exact ⟨root n, parent_root_self n, root_lt_width n⟩
  · obtain ⟨m, _, _, hm3, _, hm5⟩ := parent_spec hx hroot
    exact ⟨A x m, hm5, hm3⟩

theorem dirpathLoop_spec {n : Nat} :
    ∀ fuel c, c < node_width n → log2 (node_width n) - level c < fuel →
    ∃ d, dirpathLoop fuel c n = some d ∧ ∀ y ∈ d, y < node_width n := by
  intro fuel
  induction fuel with
  | zero =>
    intro c h1 h2
    omega
  | succ f ih =>
    intro c hc hf
    by_cases hroot : c = root n
    · refine ⟨[], ?_, by simp⟩
      show (if c = root n then some []
          else match parent c n with
            | none => none
            | some p2 =>
              match dirpathLoop f p2 n with
              | none => none
              | some rest => some (c :: rest)) = some []
      rw [if_pos hroot]
    · obtain ⟨m, hm1, hm2, hm3, hm4, hm5⟩ := parent_spec hc hroot
      obtain ⟨d, hd1, hd2⟩ := ih (A c m) hm3 (by rw [level_A]; omega)
      refine ⟨c :: d, ?_, ?_⟩
      · have hshape : dirpathLoop (f + 1) c n
            = match dirpathLoop f (A c m) n with
              | none => none
              | some rest => some (c :: rest) := by
          show (if c = root n then some []
              else match parent c n with
                | none => none
                | some p2 =>
                  match dirpathLoop f p2 n with
                  | none => none
                  | some rest => some (c :: rest)) = _
          rw [if_neg hroot, hm5]
        rw [hshape, hd1]
      · intro y hy
        rw [List.mem_cons] at hy
        rcases hy with rfl | hy
        · exact hc
        · exact hd2 y hy

theorem dirpath_spec {n x : Nat} (hx : x < node_width n) :
    ∃ d, dirpath x n = some d ∧ ∀ y ∈ d, y < node_width n := by
  by_cases hroot : x = root n
  · refine ⟨[], ?_, by simp⟩
    unfold dirpath
    rw [if_pos hroot]
  · obtain ⟨m, hm1, hm2, hm3, hm4, hm5⟩ := parent_spec hx hroot
    obtain ⟨d, hd1, hd2⟩ :=
      dirpathLoop_spec (node_width n) (A x m) hm3 (by have := log2_lt_width n; omega)
    refine ⟨x :: d, ?_, ?_⟩
    · have hshape : dirpath x n
          = match dirpathLoop (node_width n) (A x m) n with
            | none => none
            | some rest => some (x :: rest) := by
        unfold dirpath
        rw [if_neg hroot, hm5]
      rw [hshape, hd1]
    · intro y hy
      rw [List.mem_cons] at hy
      rcases hy with rfl | hy
      · exact hx
      · exact hd2 y hy

theorem siblingsOf_spec {n : Nat} :
    ∀ d : List Nat, (∀ y ∈ d, y < node_width n) →
    ∃ c, siblingsOf d n = some c ∧ ∀ s ∈ c, s < node_width n := by
  intro d
  induction d with
  | nil =>
    intro _
    exact ⟨[], rfl, by simp⟩
  | cons y ys ih =>
    intro hall
    obtain ⟨s, hs1, hs2⟩ := sibling_total (hall y (by simp))
    obtain ⟨c, hc1, hc2⟩ := ih (fun z hz => hall z (by simp [hz]))
    refine ⟨s :: c, ?_, ?_⟩
    · show (match sibling y n, siblingsOf ys n with
        | some s2, some rest => some (s2 :: rest)
        | _, _ => none) = some (s :: c)
      rw [hs1, hc1]
    · intro t ht
      rw [List.mem_cons] at ht
      rcases ht with rfl | ht
      · exact hs2
      · exact hc2 t ht

theorem copath_spec {n x : Nat} (hx : x < node_width n) :
    ∃ c, copath x n = some c ∧ ∀ s ∈ c, s < node_width n := by
  obtain ⟨d, hd1, hd2⟩ := dirpath_spec hx
  obtain ⟨c, hc1, hc2⟩ := siblingsOf_spec d hd2
  refine ⟨c, ?_, hc2⟩
  unfold copath
  rw [hd1]
  exact hc1

end treemath

namespace treemath

/-- C1: for every leaf count `n ≥ 1` and every index `x` in `[0, node_width n)`,
each public query returns only in-range indices: `parent`, `right`, `left` and
`sibling` produce an index `< node_width n`, and every element of `dirpath`
and of `copath` is `< node_width n`. -/
theorem C1_queries_in_range (n x : Nat) (hn : 1 ≤ n) (hx : x < node_width n) :
    (∃ p, parent x n = some p ∧ p < node_width n) ∧
    (∃ r, right x n = some r ∧ r < node_width n) ∧
    left x < node_width n ∧
    (∃ s, sibling x n = some s ∧ s < node_width n) ∧
    (∃ d, dirpath x n = some d ∧ ∀ y ∈ d, y < node_width n) ∧
    (∃ c, copath x n = some c ∧ ∀ y ∈ c, y < node_width n) :=
  ⟨parent_total hx, right_total hx, lt_of_le_of_lt (left_le x) hx,
    sibling_total hx, dirpath_spec hx, copath_spec hx⟩

/-- C1 witness at `n = 4`, `x = 5`. -/
theorem C1_queries_in_range_witness :
    (∃ p, parent 5 4 = some p ∧ p < node_width 4) ∧
    (∃ r, right 5 4 = some r ∧ r < node_width 4) ∧
    left 5 < node_width 4 ∧
    (∃ s, sibling 5 4 = some s ∧ s < node_width 4) ∧
    (∃ d, dirpath 5 4 = some d ∧ ∀ y ∈ d, y < node_width 4) ∧
    (∃ c, copath 5 4 = some c ∧ ∀ y ∈ c, y < node_width 4) :=
  C1_queries_in_range 4 5 (by decide) (by decide)

/-- C2 (code bug): the assertion `assert_in_range` only panics when
`x > node_width n`, so the boundary index `x = node_width n` is accepted for
every `n`; at the failing input `n = 2`, `x = 3 = node_width 2` the accepted
index then sends every correction loop into divergence (modelled as `none`):
the `right` loop gets stuck at the out-of-range fixed point `left 4 = 4 ≥ 3`,
and the `parent` loop climbs `7, 15, 31, …` forever — no out-of-range failure
is ever raised, contradicting the claimed boundary behaviour. -/
theorem C2_boundary_not_rejected :
    (∀ n : Nat, assert_in_range_ok (node_width n) n = true) ∧
    node_width 2 = 3 ∧
    right 3 2 = none ∧ parent 3 2 = none ∧ sibling 3 2 = none ∧ dirpath 3 2 = none ∧
    left 4 = 4 ∧ node_width 2 ≤ 4 := by
  constructor
  · intro n
    unfold assert_in_range_ok
    simp
  · decide

/-- C4: for valid `x ≠ root n`, both children of `parent x n` resolve back to
that parent: `parent (left p) = p` and `parent (right p) = p`. -/
theorem C4_children_resolve (n x : Nat) (hn : 1 ≤ n) (hx : x < node_width n)
    (hroot : x ≠ root n) :
    ∃ p, parent x n = some p ∧ parent (left p) n = some p ∧
      ∃ z, right p n = some z ∧ parent z n = some p :=
  parent_children hx hroot

/-- C4 witness at `n = 4`, `x = 0`. -/
theorem C4_children_resolve_witness :
    ∃ p, parent 0 4 = some p ∧ parent (left p) 4 = some p ∧
      ∃ z, right p 4 = some z ∧ parent z 4 = some p :=
  C4_children_resolve 4 0 (by decide) (by decide) (by decide)

/-- C5: for every valid internal (odd) `x ≠ root n`, `sibling` is an
involution: `sibling (sibling x n) n = x`. -/
theorem C5_sibling_involution (n x : Nat) (hn : 1 ≤ n) (hx : x < node_width n)
    (hodd : x % 2 = 1) (hroot : x ≠ root n) :
    ∃ s, sibling x n = some s ∧ sibling s n = some x :=
  sibling_sibling hx hroot

/-- C5 witness at `n = 4`, `x = 1`. -/
theorem C5_sibling_involution_witness :
    ∃ s, sibling 1 4 = some s ∧ sibling s 4 = some 1 :=
  C5_sibling_involution 4 1 (by decide) (by decide) (by decide) (by decide)

/-- C6: on valid inputs the virtual-index correction loops terminate, and a
fuel bounded by the tree height (`log2 (node_width n)` iterations) already
suffices: `parent` and `right` are total on `[0, node_width n)`, the `parent`
loop needs at most `log2 (node_width n) + 1` steps, and the `right` loop at
most `level x` steps. -/
theorem C6_loops_terminate_within_height (n x : Nat) (hn : 1 ≤ n)
    (hx : x < node_width n) :
    (∃ p, parent x n = some p) ∧ (∃ r, right x n = some r) ∧
    (x ≠ root n →
      ∃ p, parent x n = some p ∧
        parentLoop (log2 (node_width n) + 1) (parent_step x) n = some p) ∧
    (level x ≠ 0 →
      ∃ r, right x n = some r ∧
        rightLoop (level x) (x ^^^ (3 <<< (level x - 1))) n = some r) := by
  obtain ⟨p0, hp0, _⟩ := parent_total hx
  obtain ⟨r0, hr0, _⟩ := right_total hx
  refine ⟨⟨p0, hp0⟩, ⟨r0, hr0⟩, ?_, ?_⟩
  · intro hroot
    have hk := level_lt_of_ne_root hx hroot
    obtain ⟨m, hm1, hm2, hm3, hm4, hm5⟩ :=
      parentLoop_reaches hx (node_width n) (level x + 1) (by omega)
        (by have := log2_lt_width n; omega)
    obtain ⟨m2, hq1, hq2, hq3, hq4, hq5⟩ :=
      parentLoop_reaches hx (log2 (node_width n) + 1) (level x + 1) (by omega) (by omega)
    have hmeq : m = m2 := by
      rcases Nat.lt_trichotomy m m2 with h | h | h
      · have := hq4 m hm1 h
        omega
      · exact h
      · have := hm4 m2 hq1 h
        omega
    refine ⟨A x m, ?_, ?_⟩
    · unfold parent
      rw [if_neg hroot, parent_step_A_self]
      exact hm5
    · rw [parent_step_A_self, hmeq]
      exact hq5
  · intro h0
    have hm : 1 ≤ level x := by omega
    obtain ⟨j, h1, h2, h3, h4⟩ := right_spec hx hm
    obtain ⟨j2, g1, g2, g3, g4⟩ := rightLoop_spec hx hm (level x - 1) (level x)
      (by omega) (by omega)
    have hjeq : j = j2 := by
      rcases Nat.lt_trichotomy j j2 with h | h | h
      · have := h3 j2 h (by omega)
        omega
      · exact h
      · have := g3 j h (by omega)
        omega
    refine ⟨x + 2 ^ j, h4, ?_⟩
    rw [right_pre hm, hjeq]
    exact g4

/-- C6 witness at `n = 4`, `x = 5`. -/
theorem C6_loops_terminate_within_height_witness :
    (∃ p, parent 5 4 = some p) ∧ (∃ r, right 5 4 = some r) ∧
    ((5 : Nat) ≠ root 4 →
      ∃ p, parent 5 4 = some p ∧
        parentLoop (log2 (node_width 4) + 1) (parent_step 5) 4 = some p) ∧
    (level 5 ≠ 0 →
      ∃ r, right 5 4 = some r ∧
        rightLoop (level 5) (5 ^^^ (3 <<< (level 5 - 1))) 4 = some r) :=
  C6_loops_terminate_within_height 4 5 (by decide) (by decide)

/-- C7: the root is a fixed point of `parent` and of `sibling`. -/
theorem C7_root_fixed_point (n : Nat) (hn : 1 ≤ n) :
    parent (root n) n = some (root n) ∧ sibling (root n) n = some (root n) :=
  ⟨parent_root_self n, sibling_root_self n⟩

/-- C7 witness at `n = 4`. -/
theorem C7_root_fixed_point_witness :
    parent (root 4) 4 = some (root 4) ∧ sibling (root 4) 4 = some (root 4) :=
  C7_root_fixed_point 4 (by decide)

/-- C8: the concrete `n = 4` tree (slots `0..6`): leaves, root, children,
parent, sibling, dirpath and copath all take the published values. -/
theorem C8_concrete_n4 :
    leaves 4 = [0, 2, 4, 6] ∧ root 4 = 3 ∧ left 3 = 1 ∧ right 3 4 = some 5 ∧
    parent 1 4 = some 3 ∧ sibling 1 4 = some 5 ∧ dirpath 0 4 = some [0, 1] ∧
    copath 0 4 = some [2, 5] := by decide

end treemath

namespace treemath

/-! ### Hex transcoding (C9) -/

theorem hexDigit_spec : ∀ d, d < 16 →
    isUpperHexDigit (hexDigit d) = true ∧ hexCharVal (hexDigit d) = some d := by decide

/-- C9: hex transcoding is a deterministic uppercase round-trip: on byte
sequences, `bytes_to_hex` yields two uppercase hex digits per byte and
`hex_to_bytes` inverts it. -/
theorem C9_hex_roundtrip (l : List Nat) (hl : ∀ b ∈ l, b < 256) :
    (bytes_to_hex l).length = 2 * l.length ∧
    (∀ c ∈ bytes_to_hex l, isUpperHexDigit c = true) ∧
    hex_to_bytes (bytes_to_hex l) = some l := by
  induction l with
  | nil => exact ⟨rfl, by simp [bytes_to_hex], rfl⟩
  | cons b bs ih =>
    have hb : b < 256 := hl b (by simp)
    obtain ⟨ih1, ih2, ih3⟩ := ih (fun z hz => hl z (by simp [hz]))
    have hd1 := hexDigit_spec (b / 16) (by omega)
    have hd2 := hexDigit_spec (b % 16) (by omega)
    have hcons : bytes_to_hex (b :: bs)
        = hexDigit (b / 16) :: hexDigit (b % 16) :: bytes_to_hex bs := by
      simp [bytes_to_hex]
    refine ⟨?_, ?_, ?_⟩
    · rw [hcons]
      simp only [List.length_cons]
      omega
    · intro c hc
      rw [hcons, List.mem_cons, List.mem_cons] at hc
      rcases hc with rfl | rfl | hc
      · exact hd1.1
      · exact hd2.1
      · exact ih2 c hc
    · rw [hcons]
      show (match hexCharVal (hexDigit (b / 16)), hexCharVal (hexDigit (b % 16)),
          hex_to_bytes (bytes_to_hex bs) with
        | some h, some l2, some bs2 => some ((16 * h + l2) :: bs2)
        | _, _, _ => none) = some (b :: bs)
      simp only [hd1.2, hd2.2, ih3]
      rw [show 16 * (b / 16) + b % 16 = b by omega]

/-- C9 witness at the bytes `[0, 255, 171]`. -/
theorem C9_hex_roundtrip_witness :
    (bytes_to_hex [0, 255, 171]).length = 2 * ([0, 255, 171] : List Nat).length ∧
    (∀ c ∈ bytes_to_hex [0, 255, 171], isUpperHexDigit c = true) ∧
    hex_to_bytes (bytes_to_hex [0, 255, 171]) = some [0, 255, 171] :=
  C9_hex_roundtrip [0, 255, 171] (by decide)

/-! ### Test-vector generation (C3) -/

theorem foldl_append_eq_flatMap {α β : Type} (g : α → List β) :
    ∀ (L : List α) (acc : List β),
      L.foldl (fun buf e => buf ++ g e) acc = acc ++ L.flatMap g := by
  intro L
  induction L with
  | nil => intro acc; simp
  | cons e es ih => intro acc; simp [ih, List.append_assoc]

/-- C3 counterexample: at `gen_vector 0 2 1 (OneArg level)` the code generates
the two samples `level 0, level 1` (the `Range` is half-open), yet the leading
byte of the output is `3 = range_end - range_start + 1`, not the sample count
`2`; so the first byte does not equal the count of generated samples and no
output is produced for the domain value `2`. -/
theorem C3_counterexample :
    gen_vector 0 2 1 (FunctionType.OneArg level) = [3, 2, 0, 1] ∧
    ((List.range' 0 2).map (fun i => level i % 256)).length = 2 ∧
    (gen_vector 0 2 1 (FunctionType.OneArg level)).head? = some 3 ∧
    (3 : Nat) ≠ 2 := by decide

/-- C3 (amended): `gen_vector` produces one output per value of the half-open
domain `[range_start, range_end)`, and serializes a single leading byte equal
to `(range_end - range_start + 1) % 256` — one MORE than the number of
generated samples — followed by the length-prefixed encoding of the sample
values (scalar operations), or by a per-sample length byte plus
length-prefixed bytes (path operations). -/
theorem C3_gen_vector_structure (range_start range_end size : Nat) :
    (∀ f : Nat → Nat,
      gen_vector range_start range_end size (FunctionType.OneArg f)
        = ((range_end - range_start + 1) % 256)
          :: encode_vec_u8 []
            ((List.range' range_start (range_end - range_start)).map (fun i => f i % 256))) ∧
    (∀ f : Nat → Nat → Nat,
      gen_vector range_start range_end size (FunctionType.TwoArgs f)
        = ((range_end - range_start + 1) % 256)
          :: encode_vec_u8 []
            ((List.range' range_start (range_end - range_start)).map
              (fun i => f i size % 256))) ∧
    (∀ f : Nat → Nat → List Nat,
      gen_vector range_start range_end size (FunctionType.TwoArgsPath f)
        = ((range_end - range_start + 1) % 256)
          :: ((List.range' range_start (range_end - range_start)).map
              (fun i => (f i size).map (fun v => v % 256))).flatMap
            (fun e => e.length % 256 :: e.length % 256 :: e)) := by
  refine ⟨?_, ?_, ?_⟩
  · intro f
    simp [gen_vector, encode_vec_u8]
  · intro f
    simp [gen_vector, encode_vec_u8]
  · intro f
    show ((List.range' range_start (range_end - range_start)).map
        (fun i => (f i size).map (fun v => v % 256))).foldl
        (fun buf e => encode_vec_u8 (buf ++ [e.length % 256]) e)
        [(range_end - range_start + 1) % 256] = _
    have hfun : (fun (buf : List Nat) (e : List Nat) =>
          encode_vec_u8 (buf ++ [e.length % 256]) e)
        = fun buf e => buf ++ (e.length % 256 :: e.length % 256 :: e) := by
      funext buf e
      simp [encode_vec_u8]
    rw [hfun, foldl_append_eq_flatMap]
    simp

/-! ### `read_vector` decoding (C10) -/

theorem decode_vec_u8_encode (e Y : List Nat) :
    decode_vec_u8 (e.length :: (e ++ Y)) = some (e, Y) := by
  show (if e.length ≤ (e ++ Y).length
      then some ((e ++ Y).take e.length, (e ++ Y).drop e.length) else none) = some (e, Y)
  rw [if_pos (by simp), List.take_left, List.drop_left]

theorem readVectorLoop_step (c : Nat) (e Y : List Nat) :
    readVectorLoop (c + 1) (e.length :: (e ++ Y))
      = match readVectorLoop c Y with
        | none => none
        | some (vs, r) => some (e :: vs, r) := by
  show (match decode_vec_u8 (e.length :: (e ++ Y)) with
    | none => none
    | some (v, r2) =>
      match readVectorLoop c r2 with
      | none => none
      | some (vs, r3) => some (v :: vs, r3)) = _
  rw [decode_vec_u8_encode]

theorem readVectorLoop_roundtrip :
    ∀ (samples : List (List Nat)) (rest : List Nat),
      readVectorLoop samples.length (samples.flatMap (fun e => e.length :: e) ++ rest)
        = some (samples, rest) := by
  intro samples
  induction samples with
  | nil => intro rest; rfl
  | cons e es ih =>
    intro rest
    have h1 : (e :: es).flatMap (fun e2 => e2.length :: e2) ++ rest
        = e.length :: (e ++ (es.flatMap (fun e2 => e2.length :: e2) ++ rest)) := by
      simp
    rw [h1, List.length_cons, readVectorLoop_step, ih rest]

/-- C10: `read_vector` decodes asymmetrically. The `Primitive` case starts
decoding a length-prefixed byte string at the very first byte of the buffer
(never consuming a separate count byte), while the `Vector` case first
consumes one count byte and then decodes that many length-prefixed strings;
consequently, on the buffer `gen_vector` produces for a scalar operation
(count byte, then length byte, then samples) the `Primitive` case treats the
count byte `3` as the payload length and returns the next three bytes. -/
theorem C10_read_vector_asymmetry :
    (∀ (p rest : List Nat) (len : Nat),
      read_vector (ReturnType.Primitive p) (len :: rest)
        = if len ≤ rest.length then some (ReturnType.Primitive (rest.take len)) else none) ∧
    (∀ samples : List (List Nat), samples.length < 256 → (∀ e ∈ samples, e.length < 256) →
      read_vector (ReturnType.Vector [])
          (samples.length :: samples.flatMap (fun e => e.length :: e))
        = some (ReturnType.Vector samples)) ∧
    read_vector (ReturnType.Primitive []) (gen_vector 0 2 1 (FunctionType.OneArg level))
      = some (ReturnType.Primitive [2, 0, 1]) := by
  refine ⟨?_, ?_, by decide⟩
  · intro p rest len
    show (match (if len ≤ rest.length then some (rest.take len, rest.drop len) else none) with
      | none => none
      | some (v, _) => some (ReturnType.Primitive v)) = _
    by_cases h : len ≤ rest.length
    · rw [if_pos h, if_pos h]
    · rw [if_neg h, if_neg h]
  · intro samples _ _
    show (match readVectorLoop samples.length (samples.flatMap (fun e => e.length :: e)) with
      | none => none
      | some (vs, _) => some (ReturnType.Vector vs)) = some (ReturnType.Vector samples)
    have h := readVectorLoop_roundtrip samples []
    rw [List.append_nil] at h
    rw [h]

/-- C10 witness: the `Vector` round-trip applied at the samples `[[7], [8, 9]]`. -/
theorem C10_read_vector_asymmetry_witness :
    read_vector (ReturnType.Vector [])
        (([[7], [8, 9]] : List (List Nat)).length
          :: ([[7], [8, 9]] : List (List Nat)).flatMap (fun e => e.length :: e))
      = some (ReturnType.Vector [[7], [8, 9]]) :=
  C10_read_vector_asymmetry.2.1 [[7], [8, 9]] (by decide) (by decide)

end treemath
